import Mathlib

/-!
Shallow embedding of the solana token-holders scripts (src/src/script.ts and
the second, unnamed script file) and proofs about the claims of the
specification.

Modelling conventions:
* JavaScript `Map` objects are modelled as insertion-ordered association
  lists (`jget` / `jset` below mirror `Map.get` / `Map.set`: `set` on an
  existing key updates the entry in place, otherwise it appends).
* Network traffic is modelled by a list of `PageResp` values: the response
  stream consumed by the paginated fetch loop, one response per issued
  request.  HTTP status codes are natural numbers; `ok` is the `response.ok`
  flag read by the code.
* JavaScript numbers used for USD prices/values are modelled as exact
  rationals; raw token amounts are natural numbers.
* Wall-clock time (for the rate limiter) is modelled as virtual milliseconds
  with exact timers: `Date.now()` returns the virtual time, `setTimeout d`
  advances it by exactly `d`, and each task body takes an arbitrary
  caller-chosen duration.
-/

/-- One on-chain token account record as returned by the external API
(`token_accounts` entries in script.ts). -/
structure TokenAccount where
  address : String
  mint : String
  owner : String
  amount : Nat
deriving DecidableEq, Repr

/-- The `TokenHolder` record of script.ts: accumulated balance of one owner
address for one token, plus its USD value. -/
structure TokenHolder where
  address : String
  amount : Nat
  valueUsd : ℚ
deriving DecidableEq, Repr

/-- The `TokenInfo` record of script.ts: a token address paired with its
unit USD price. -/
structure TokenInfo where
  address : String
  priceUsd : ℚ
deriving DecidableEq, Repr

/-- One HTTP response to a `getTokenAccounts` page request, as observed by
the fetch loop: the `ok` flag, the numeric status, and the parsed body's
`result.token_accounts` (with `none` modelling an absent `result`). -/
structure PageResp where
  ok : Bool
  status : Nat
  result : Option (List TokenAccount)
deriving DecidableEq, Repr

/-- The `HolderSummary` record of script.ts built by
`findHoldersWithMinTokens`: per-address cross-token summary. -/
structure HolderSummary where
  address : String
  tokenCount : Nat
  holdings : List (String × TokenHolder)
  totalValueUsd : ℚ
deriving DecidableEq, Repr

/-- The `TokenHolder` record of the second script file (no USD value). -/
structure TokenHolder0 where
  address : String
  amount : Nat
deriving DecidableEq, Repr

/-- JavaScript `Map.get`: first binding of the key, if any. -/
def jget {β : Type} : List (String × β) → String → Option β
  | [], _ => none
  | p :: rest, k => if p.1 = k then some p.2 else jget rest k

/-- JavaScript `Map.set`: update the first binding of the key in place,
otherwise append a new binding (insertion order preserved). -/
def jset {β : Type} : List (String × β) → String → β → List (String × β)
  | [], k, v => [(k, v)]
  | p :: rest, k, v => if p.1 = k then (k, v) :: rest else p :: jset rest k v

theorem jget_jset_self {β : Type} (m : List (String × β)) (k : String) (v : β) :
    jget (jset m k v) k = some v := by
  induction m with
  | nil => simp [jget, jset]
  | cons p rest ih =>
    by_cases h : p.1 = k
    · simp [jset, h, jget]
    · simp [jset, h, jget, ih]

theorem jget_jset_ne {β : Type} (m : List (String × β)) (k a : String) (v : β)
    (h : a ≠ k) : jget (jset m k v) a = jget m a := by
  induction m with
  | nil =>
    simp only [jset, jget]
    rw [if_neg (fun hc => h hc.symm)]
  | cons p rest ih =>
    by_cases hp : p.1 = k
    · simp only [jset, if_pos hp, jget]
      rw [if_neg (fun hc => h hc.symm), if_neg (by rw [hp]; exact fun hc => h hc.symm)]
    · simp only [jset, if_neg hp, jget]
      by_cases ha : p.1 = a
      · rw [if_pos ha, if_pos ha]
      · rw [if_neg ha, if_neg ha]
        exact ih

theorem mem_jset {β : Type} {m : List (String × β)} {k : String} {v : β}
    {p : String × β} (hp : p ∈ jset m k v) : p = (k, v) ∨ p ∈ m := by
  induction m with
  | nil => simpa [jset] using hp
  | cons q rest ih =>
    by_cases hq : q.1 = k
    · simp only [jset, if_pos hq, List.mem_cons] at hp
      rcases hp with h1 | h1
      · exact Or.inl h1
      · exact Or.inr (List.mem_cons_of_mem _ h1)
    · simp only [jset, if_neg hq, List.mem_cons] at hp
      rcases hp with h1 | h1
      · exact Or.inr (by simp [h1])
      · rcases ih h1 with h2 | h2
        · exact Or.inl h2
        · exact Or.inr (List.mem_cons_of_mem _ h2)

theorem jget_mem {β : Type} {m : List (String × β)} {k : String} {v : β}
    (h : jget m k = some v) : (k, v) ∈ m := by
  induction m with
  | nil => simp [jget] at h
  | cons p rest ih =>
    obtain ⟨q1, q2⟩ := p
    by_cases hp : q1 = k
    · simp only [jget, if_pos hp] at h
      cases h
      subst hp
      exact List.mem_cons_self _ _
    · simp only [jget, if_neg hp] at h
      exact List.mem_cons_of_mem _ (ih h)

theorem jget_eq_none_iff {β : Type} {m : List (String × β)} {k : String} :
    jget m k = none ↔ k ∉ m.map Prod.fst := by
  induction m with
  | nil => simp [jget]
  | cons p rest ih =>
    by_cases hp : p.1 = k
    · simp [jget, hp]
    · simp [jget, hp, ih, Ne.symm hp]

theorem jset_keys {β : Type} (m : List (String × β)) (k : String) (v : β) :
    (jset m k v).map Prod.fst =
      if k ∈ m.map Prod.fst then m.map Prod.fst else m.map Prod.fst ++ [k] := by
  induction m with
  | nil => simp [jset]
  | cons p rest ih =>
    by_cases hp : p.1 = k
    · simp [jset, hp]
    · simp only [jset, if_neg hp, List.map_cons, ih, Ne.symm hp]
      by_cases hk : k ∈ rest.map Prod.fst
      · simp [hk, Ne.symm hp]
      · simp [hk, Ne.symm hp]

theorem jset_keys_nodup {β : Type} {m : List (String × β)} {k : String} {v : β}
    (h : (m.map Prod.fst).Nodup) : ((jset m k v).map Prod.fst).Nodup := by
  rw [jset_keys]
  by_cases hk : k ∈ m.map Prod.fst
  · simpa [hk]
  · rw [if_neg hk]
    refine List.Nodup.append h (List.nodup_singleton k) ?_
    intro a ha hb
    rw [List.mem_singleton] at hb
    exact hk (hb ▸ ha)

theorem jget_of_mem {β : Type} {m : List (String × β)} {k : String} {v : β}
    (hnd : (m.map Prod.fst).Nodup) (hm : (k, v) ∈ m) : jget m k = some v := by
  induction m with
  | nil => simp at hm
  | cons p rest ih =>
    simp only [List.map_cons, List.nodup_cons] at hnd
    rcases List.mem_cons.mp hm with h | h
    · subst h
      simp [jget]
    · have hne : p.1 ≠ k := by
        intro hc
        exact hnd.1 (hc ▸ (List.mem_map.mpr ⟨(k, v), h, rfl⟩))
      simp [jget, hne, ih hnd.2 h]

/-- Outcome of one `getTokenHolders` page loop (script.ts lines 221-273).
`done` is the normal return (the sorted holder array), `failed s` models the
thrown `Error` carrying the non-success status `s`, and `incomplete` marks
the model artifact of the supplied response stream running out before the
loop finished (the real loop would simply keep waiting for more traffic). -/
inductive FetchOutcome where
  | done (holders : List TokenHolder)
  | failed (status : Nat)
  | incomplete
deriving DecidableEq, Repr

/-- Observable record of one `getTokenHolders` run: its outcome, the page
numbers of the requests it issued (in order, one entry per consumed
response), and the total 429-cooldown time it slept (ms). -/
structure FetchRun where
  outcome : FetchOutcome
  pagesRequested : List Nat
  cooldownMs : Nat
deriving DecidableEq, Repr

/-- The holder map of `getTokenHolders` (a JS `Map<string, TokenHolder>`). -/
abbrev HolderMap := List (String × TokenHolder)

/-- One iteration body of the `token_accounts.forEach` callback in
script.ts (lines 259-267): add the record's amount to the running total of
its owner and recompute the USD value. -/
def processAccount (priceUsd : ℚ) (m : HolderMap) (a : TokenAccount) : HolderMap :=
  let currentAmount : Nat :=
    match jget m a.owner with
    | some h => h.amount
    | none => 0
  let newAmount := currentAmount + a.amount
  jset m a.owner ⟨a.owner, newAmount, (newAmount : ℚ) * priceUsd⟩

/-- Processing of one full page of account records (the `forEach` loop). -/
def processPage (priceUsd : ℚ) (m : HolderMap) (accs : List TokenAccount) : HolderMap :=
  accs.foldl (processAccount priceUsd) m

/-- The final `Array.from(holders.values()).sort((a, b) => b.amount - a.amount)`
of script.ts: stable sort descending by raw amount (JS `Array.prototype.sort`
is stable; any stable sort yields the same list, modelled here by stable
insertion sort). -/
def sortHolders (l : List TokenHolder) : List TokenHolder :=
  l.insertionSort (fun a b => b.amount ≤ a.amount)

/-- The `while (true)` pagination loop of `getTokenHolders` (script.ts lines
221-270), as a function of the response stream: a non-ok 429 response sleeps
1000 ms and retries the same page; any other non-ok response throws; an ok
response with an absent result or an empty `token_accounts` list breaks the
loop and returns the sorted holder array; otherwise the page's records are
accumulated and the page counter advances by one. -/
def fetchGo (priceUsd : ℚ) : HolderMap → Nat → List PageResp → FetchRun
  | _, _, [] => ⟨.incomplete, [], 0⟩
  | m, page, r :: rs =>
    if r.ok = false then
      if r.status = 429 then
        let k := fetchGo priceUsd m page rs
        ⟨k.outcome, page :: k.pagesRequested, 1000 + k.cooldownMs⟩
      else
        ⟨.failed r.status, [page], 0⟩
    else
      match r.result with
      | none => ⟨.done (sortHolders (m.map Prod.snd)), [page], 0⟩
      | some accs =>
        if accs.length = 0 then
          ⟨.done (sortHolders (m.map Prod.snd)), [page], 0⟩
        else
          let k := fetchGo priceUsd (processPage priceUsd m accs) (page + 1) rs
          ⟨k.outcome, page :: k.pagesRequested, k.cooldownMs⟩

/-- `getTokenHolders(heliusApiKey, mintAddress, priceUsd)` of script.ts,
with the network modelled by the response stream (the api key and mint only
shape the request URL/body, which is external). The map starts empty and the
page counter at 1. -/
def getTokenHolders (priceUsd : ℚ) (resps : List PageResp) : FetchRun :=
  fetchGo priceUsd [] 1 resps

/-- Account records actually consumed (accumulated) by the fetch loop on a
given response stream: records of ok pages before the first terminating or
fatal response. -/
def consumedAccounts : List PageResp → List TokenAccount
  | [] => []
  | r :: rs =>
    if r.ok = false then
      if r.status = 429 then consumedAccounts rs else []
    else
      match r.result with
      | none => []
      | some accs => if accs.length = 0 then [] else accs ++ consumedAccounts rs

/-- A response that makes the loop advance the page counter: ok with a
nonempty record list. -/
def isDataPage (r : PageResp) : Bool :=
  r.ok && (match r.result with
           | none => false
           | some accs => !(accs.length = 0 : Bool))

/-- A response that terminates the loop normally: ok with an absent result
or an empty record list. -/
def isTerminator (r : PageResp) : Bool :=
  r.ok && (match r.result with
           | none => true
           | some accs => (accs.length = 0 : Bool))

/-- Sum of the `amount` fields of the records owned by `a`. -/
def sumOwned (recs : List TokenAccount) (a : String) : Nat :=
  ((recs.filter (fun x => x.owner = a)).map TokenAccount.amount).sum

/-- Owners appearing in a record list. -/
def ownersOf (recs : List TokenAccount) : List String :=
  recs.map TokenAccount.owner

theorem key_mem_jset_keys {β : Type} (m : List (String × β)) (k : String) (v : β) :
    k ∈ (jset m k v).map Prod.fst := by
  rw [jset_keys]
  by_cases hk : k ∈ m.map Prod.fst
  · simp [hk]
  · simp [hk]

theorem mem_keys_jset_of_mem {β : Type} {m : List (String × β)} {k a : String} {v : β}
    (h : a ∈ m.map Prod.fst) : a ∈ (jset m k v).map Prod.fst := by
  rw [jset_keys]
  by_cases hk : k ∈ m.map Prod.fst
  · rw [if_pos hk]
    exact h
  · rw [if_neg hk]
    exact List.mem_append_left _ h

theorem mem_jset_of_nodup {β : Type} {m : List (String × β)} {k : String} {v : β}
    (hnd : (m.map Prod.fst).Nodup) {p : String × β} (hp : p ∈ jset m k v) :
    p = (k, v) ∨ (p ∈ m ∧ p.1 ≠ k) := by
  induction m with
  | nil => simpa [jset] using hp
  | cons q rest ih =>
    simp only [List.map_cons, List.nodup_cons] at hnd
    by_cases hq : q.1 = k
    · simp only [jset, if_pos hq, List.mem_cons] at hp
      rcases hp with h1 | h1
      · exact Or.inl h1
      · refine Or.inr ⟨List.mem_cons_of_mem _ h1, ?_⟩
        intro hc
        exact hnd.1 (hq ▸ hc ▸ List.mem_map.mpr ⟨p, h1, rfl⟩)
    · simp only [jset, if_neg hq, List.mem_cons] at hp
      rcases hp with h1 | h1
      · exact Or.inr ⟨by simp [h1], by rw [h1]; exact hq⟩
      · rcases ih hnd.2 h1 with h2 | h2
        · exact Or.inl h2
        · exact Or.inr ⟨List.mem_cons_of_mem _ h2.1, h2.2⟩

theorem sumOwned_nil (a : String) : sumOwned [] a = 0 := rfl

theorem sumOwned_append (recs1 recs2 : List TokenAccount) (a : String) :
    sumOwned (recs1 ++ recs2) a = sumOwned recs1 a + sumOwned recs2 a := by
  simp [sumOwned, List.filter_append]

theorem sumOwned_singleton (x : TokenAccount) (a : String) :
    sumOwned [x] a = if x.owner = a then x.amount else 0 := by
  by_cases h : x.owner = a
  · simp [sumOwned, h]
  · simp [sumOwned, h]

theorem sumOwned_eq_zero_of_not_owner {recs : List TokenAccount} {a : String}
    (h : ∀ x ∈ recs, x.owner ≠ a) : sumOwned recs a = 0 := by
  have : recs.filter (fun x => x.owner = a) = [] :=
    List.filter_eq_nil_iff.mpr (by
      intro x hx
      simpa using h x hx)
  simp [sumOwned, this]

/-- Invariant of the holder map of `getTokenHolders` after having
accumulated exactly the records `recs`: keys are distinct, each stored
holder is keyed by its own address, records the sum of the amounts of the
records its address owns together with that sum times the unit price, and
every owner seen so far has an entry. -/
structure MapInv (priceUsd : ℚ) (recs : List TokenAccount) (m : HolderMap) : Prop where
  nodupKeys : (m.map Prod.fst).Nodup
  vals : ∀ p ∈ m, p.2.address = p.1 ∧ p.2.amount = sumOwned recs p.1 ∧
    p.2.valueUsd = (p.2.amount : ℚ) * priceUsd ∧ p.1 ∈ ownersOf recs
  ownersIn : ∀ x ∈ recs, x.owner ∈ m.map Prod.fst

theorem mapInv_nil (priceUsd : ℚ) : MapInv priceUsd [] [] := by
  refine ⟨by simp, ?_, ?_⟩ <;> intro p hp <;> simp at hp

theorem processAccount_inv {priceUsd : ℚ} {recs : List TokenAccount} {m : HolderMap}
    (hinv : MapInv priceUsd recs m) (a : TokenAccount) :
    MapInv priceUsd (recs ++ [a]) (processAccount priceUsd m a) := by
  have hcur : (match jget m a.owner with
      | some h => h.amount
      | none => 0) = sumOwned recs a.owner := by
    cases hj : jget m a.owner with
    | some h =>
      exact (hinv.vals _ (jget_mem hj)).2.1
    | none =>
      refine (sumOwned_eq_zero_of_not_owner ?_).symm
      intro x hx hc
      exact (jget_eq_none_iff.mp hj) (hc ▸ hinv.ownersIn x hx)
  refine ⟨jset_keys_nodup hinv.nodupKeys, ?_, ?_⟩
  · intro p hp
    rcases mem_jset_of_nodup hinv.nodupKeys hp with h1 | h1
    · subst h1
      refine ⟨rfl, ?_, rfl, ?_⟩
      · simp [hcur, sumOwned_append, sumOwned_singleton]
      · simp [ownersOf]
    · obtain ⟨haddr, hamt, hval, hown⟩ := hinv.vals p h1.1
      refine ⟨haddr, ?_, hval, ?_⟩
      · rw [sumOwned_append, sumOwned_singleton, if_neg (fun hc => h1.2 hc.symm), hamt]
        exact (Nat.add_zero _).symm
      · simpa [ownersOf] using Or.inl (by simpa [ownersOf] using hown)
  · intro x hx
    rcases List.mem_append.mp hx with h1 | h1
    · exact mem_keys_jset_of_mem (hinv.ownersIn x h1)
    · rw [List.mem_singleton] at h1
      subst h1
      exact key_mem_jset_keys m x.owner _

theorem processPage_inv {priceUsd : ℚ} :
    ∀ (accs : List TokenAccount) {recs : List TokenAccount} {m : HolderMap},
    MapInv priceUsd recs m → MapInv priceUsd (recs ++ accs) (processPage priceUsd m accs)
  | [], recs, m, hinv => by simpa [processPage] using hinv
  | a :: rest, recs, m, hinv => by
    have h1 := processAccount_inv hinv a
    have h2 := processPage_inv rest h1
    simpa [processPage] using h2

theorem mapInv_sorted_values {priceUsd : ℚ} {recs : List TokenAccount} {m : HolderMap}
    (hinv : MapInv priceUsd recs m) {h : TokenHolder}
    (hm : h ∈ sortHolders (m.map Prod.snd)) :
    h.amount = sumOwned recs h.address ∧ h.valueUsd = (h.amount : ℚ) * priceUsd ∧
      h.address ∈ ownersOf recs := by
  rw [sortHolders, List.mem_insertionSort] at hm
  obtain ⟨p, hp, hph⟩ := List.mem_map.mp hm
  obtain ⟨haddr, hamt, hval, hown⟩ := hinv.vals p hp
  subst hph
  rw [haddr]
  exact ⟨hamt, hval, hown⟩

theorem fetchGo_done_spec (priceUsd : ℚ) :
    ∀ (resps : List PageResp) (m : HolderMap) (page : Nat) (recs : List TokenAccount),
    MapInv priceUsd recs m →
    ∀ hs, (fetchGo priceUsd m page resps).outcome = .done hs →
    ∀ h ∈ hs, h.amount = sumOwned (recs ++ consumedAccounts resps) h.address ∧
      h.valueUsd = (h.amount : ℚ) * priceUsd ∧
      h.address ∈ ownersOf (recs ++ consumedAccounts resps)
  | [], m, page, recs, hinv, hs, hdone => by simp [fetchGo] at hdone
  | r :: rs, m, page, recs, hinv, hs, hdone => by
    by_cases hok : r.ok = false
    · by_cases h429 : r.status = 429
      · rw [fetchGo, if_pos hok, if_pos h429] at hdone
        have := fetchGo_done_spec priceUsd rs m page recs hinv hs hdone
        simpa [consumedAccounts, hok, h429] using this
      · rw [fetchGo, if_pos hok, if_neg h429] at hdone
        simp at hdone
    · cases hres : r.result with
      | none =>
        rw [fetchGo, if_neg hok, hres] at hdone
        simp only [FetchOutcome.done.injEq] at hdone
        subst hdone
        intro h hm
        have := mapInv_sorted_values hinv hm
        simpa [consumedAccounts, hok, hres] using this
      | some accs =>
        by_cases hlen : accs.length = 0
        · rw [fetchGo, if_neg hok, hres] at hdone
          simp only [if_pos hlen, FetchOutcome.done.injEq] at hdone
          subst hdone
          intro h hm
          have := mapInv_sorted_values hinv hm
          simpa [consumedAccounts, hok, hres, hlen] using this
        · rw [fetchGo, if_neg hok, hres] at hdone
          simp only [if_neg hlen] at hdone
          have hinv2 := processPage_inv accs hinv
          have := fetchGo_done_spec priceUsd rs _ (page + 1) (recs ++ accs) hinv2 hs hdone
          intro h hm
          have h3 := this h hm
          simpa [consumedAccounts, hok, hres, hlen, List.append_assoc] using h3

theorem fetchGo_failed_ne_429 (priceUsd : ℚ) :
    ∀ (resps : List PageResp) (m : HolderMap) (page s : Nat),
    (fetchGo priceUsd m page resps).outcome = .failed s → s ≠ 429
  | [], m, page, s, h => by simp [fetchGo] at h
  | r :: rs, m, page, s, h => by
    by_cases hok : r.ok = false
    · by_cases h429 : r.status = 429
      · rw [fetchGo, if_pos hok, if_pos h429] at h
        exact fetchGo_failed_ne_429 priceUsd rs m page s h
      · rw [fetchGo, if_pos hok, if_neg h429] at h
        simp only [FetchOutcome.failed.injEq] at h
        subst h
        exact h429
    · cases hres : r.result with
      | none =>
        rw [fetchGo, if_neg hok, hres] at h
        simp at h
      | some accs =>
        by_cases hlen : accs.length = 0
        · rw [fetchGo, if_neg hok, hres] at h
          simp only [if_pos hlen] at h
          simp at h
        · rw [fetchGo, if_neg hok, hres] at h
          simp only [if_neg hlen] at h
          exact fetchGo_failed_ne_429 priceUsd rs _ (page + 1) s h

theorem fetchGo_head_page (priceUsd : ℚ) (m : HolderMap) (page : Nat)
    (resps : List PageResp) (hne : resps ≠ []) :
    ((fetchGo priceUsd m page resps).pagesRequested).head? = some page := by
  cases resps with
  | nil => exact absurd rfl hne
  | cons r rs =>
    by_cases hok : r.ok = false
    · by_cases h429 : r.status = 429
      · simp [fetchGo, hok, h429]
      · simp [fetchGo, hok, h429]
    · cases hres : r.result with
      | none => simp [fetchGo, hok, hres]
      | some accs =>
        by_cases hlen : accs.length = 0
        · simp [fetchGo, hok, hres, hlen]
        · simp [fetchGo, hok, hres, hlen]

/-- C1: for every response stream consumed by one `getTokenHolders`
invocation that terminates normally, each returned holder's accumulated
balance equals the sum of `amount` over all consumed records whose `owner`
equals that holder's address, and its USD value is that balance times the
supplied unit price. -/
theorem holder_balance_sums_owned_records (priceUsd : ℚ) (resps : List PageResp)
    (hs : List TokenHolder)
    (hdone : (getTokenHolders priceUsd resps).outcome = .done hs) :
    ∀ h ∈ hs, h.amount = sumOwned (consumedAccounts resps) h.address ∧
      h.valueUsd = (h.amount : ℚ) * priceUsd := by
  intro h hm
  have hspec := fetchGo_done_spec priceUsd resps [] 1 [] (mapInv_nil priceUsd) hs hdone h hm
  rw [List.nil_append] at hspec
  exact ⟨hspec.1, hspec.2.1⟩

/-- Concrete two-page stream used by witnesses: two accounts owned by
alice (2 + 3) and one by bob (7), then an empty terminating page. -/
def sampleResps : List PageResp :=
  [⟨true, 200, some [⟨"acct1", "mintX", "alice", 2⟩, ⟨"acct2", "mintX", "alice", 3⟩,
                     ⟨"acct3", "mintX", "bob", 7⟩]⟩,
   ⟨true, 200, some []⟩]

theorem holder_balance_sums_owned_records_witness :
    ∃ hs, (getTokenHolders 2 sampleResps).outcome = .done hs ∧
      ((getTokenHolders 2 sampleResps).outcome = .done hs →
        ∀ h ∈ hs, h.amount = sumOwned (consumedAccounts sampleResps) h.address ∧
          h.valueUsd = (h.amount : ℚ) * 2) ∧
      hs.map TokenHolder.address = ["bob", "alice"] ∧
      hs.map TokenHolder.amount = [7, 5] :=
  ⟨_, rfl, fun hdone => holder_balance_sums_owned_records 2 sampleResps _ hdone,
    by decide, by decide⟩

/-- C2: a non-ok response with status 429 leaves the holder map and the page
counter untouched (the tail run proceeds from the same state), issues the
same page as the next request after a 1000 ms cooldown, and a 429 status is
never propagated as the thrown error of the loop. -/
theorem rate_limited_page_retried_in_place (priceUsd : ℚ) (m : HolderMap)
    (page : Nat) (r : PageResp) (rs : List PageResp)
    (hok : r.ok = false) (hst : r.status = 429) :
    (fetchGo priceUsd m page (r :: rs)).outcome = (fetchGo priceUsd m page rs).outcome ∧
    (fetchGo priceUsd m page (r :: rs)).pagesRequested
      = page :: (fetchGo priceUsd m page rs).pagesRequested ∧
    (fetchGo priceUsd m page (r :: rs)).cooldownMs
      = 1000 + (fetchGo priceUsd m page rs).cooldownMs ∧
    (rs ≠ [] → ((fetchGo priceUsd m page rs).pagesRequested).head? = some page) ∧
    (∀ (resps : List PageResp) (s : Nat),
      (fetchGo priceUsd m page resps).outcome = .failed s → s ≠ 429) := by
  refine ⟨?_, ?_, ?_, fetchGo_head_page priceUsd m page rs, ?_⟩
  · rw [fetchGo, if_pos hok, if_pos hst]
  · rw [fetchGo, if_pos hok, if_pos hst]
  · rw [fetchGo, if_pos hok, if_pos hst]
  · intro resps s hfail
    exact fetchGo_failed_ne_429 priceUsd resps m page s hfail

theorem rate_limited_page_retried_in_place_witness :
    (fetchGo 1 [] 1 [⟨false, 429, none⟩, ⟨true, 200, some []⟩]).outcome
      = (fetchGo 1 [] 1 [⟨true, 200, some []⟩]).outcome :=
  (rate_limited_page_retried_in_place 1 [] 1 ⟨false, 429, none⟩
    [⟨true, 200, some []⟩] rfl rfl).1

/-- One iteration of the `holders.forEach` callback in
`findHoldersWithMinTokens` (script.ts lines 303-317): ensure a summary
exists for the holder's address, then bump its token count, record this
token's holding, and add the holder's USD value to the running total. -/
def accumHolder (token : TokenInfo) (cnt : List (String × HolderSummary))
    (holder : TokenHolder) : List (String × HolderSummary) :=
  let summary : HolderSummary :=
    match jget cnt holder.address with
    | none => ⟨holder.address, 0, [], 0⟩
    | some s => s
  jset cnt holder.address
    { summary with
      tokenCount := summary.tokenCount + 1
      holdings := jset summary.holdings token.address holder
      totalValueUsd := summary.totalValueUsd + holder.valueUsd }

/-- The cross-token accumulation of `findHoldersWithMinTokens` applied to
already-fetched per-token holder lists, in token order (the `holderCounts`
map after the token loop). -/
def accumulate (pairs : List (TokenInfo × List TokenHolder)) :
    List (String × HolderSummary) :=
  pairs.foldl (fun cnt p => p.2.foldl (accumHolder p.1) cnt) []

/-- The final filter-and-sort of `findHoldersWithMinTokens` (script.ts lines
322-324): keep summaries with at least the required token count, sorted
descending by total USD value (stable sort, as JS `Array.prototype.sort`). -/
def qualify (cnt : List (String × HolderSummary)) (minTokensRequired : Nat) :
    List HolderSummary :=
  ((cnt.map Prod.snd).filter (fun s => minTokensRequired ≤ s.tokenCount)).insertionSort
    (fun a b => b.totalValueUsd ≤ a.totalValueUsd)

/-- Errors surfaced by `findHoldersWithMinTokens`: the configuration check,
a propagated fatal fetch error (with its status), or the model artifact of
a token's response stream running out. -/
inductive AggError where
  | config
  | fetch (status : Nat)
  | incompleteStream
deriving DecidableEq, Repr

/-- The `for (const token of tokens)` loop of `findHoldersWithMinTokens`
(script.ts lines 299-320): fetch each token's holders in order, record them
in `holderDetails`, and fold them into the `holderCounts` map; a failed
fetch aborts the loop and propagates the error. The second component counts
the page requests issued. -/
def aggLoop : List (TokenInfo × List PageResp) → List (String × List TokenHolder) →
    List (String × HolderSummary) →
    Except AggError (List (String × List TokenHolder) × List (String × HolderSummary)) × Nat
  | [], details, cnt => (.ok (details, cnt), 0)
  | (token, resps) :: rest, details, cnt =>
    let run := getTokenHolders token.priceUsd resps
    match run.outcome with
    | .failed s => (.error (.fetch s), run.pagesRequested.length)
    | .incomplete => (.error .incompleteStream, run.pagesRequested.length)
    | .done holders =>
      let r := aggLoop rest (jset details token.address holders)
        (holders.foldl (accumHolder token) cnt)
      (r.1, run.pagesRequested.length + r.2)

/-- `findHoldersWithMinTokens(heliusApiKey, tokens, minTokensRequired)` of
script.ts, each token paired with its response stream. Returns the thrown
error or the pair (qualifiedHolders, holderDetails), plus the number of
page requests issued. -/
def findHoldersWithMinTokens (tokens : List (TokenInfo × List PageResp))
    (minTokensRequired : Nat) :
    Except AggError (List HolderSummary × List (String × List TokenHolder)) × Nat :=
  if tokens.length < minTokensRequired then (.error .config, 0)
  else
    match aggLoop tokens [] [] with
    | (.error e, n) => (.error e, n)
    | (.ok (details, cnt), n) => (.ok (qualify cnt minTokensRequired, details), n)

theorem aggLoop_ok_all_done :
    ∀ (tokens : List (TokenInfo × List PageResp)) (details : List (String × List TokenHolder))
      (cnt : List (String × HolderSummary)) res,
    (aggLoop tokens details cnt).1 = .ok res →
    ∀ p ∈ tokens, ∃ hs, (getTokenHolders p.1.priceUsd p.2).outcome = .done hs
  | [], details, cnt, res, hok, p, hp => by simp at hp
  | (token, resps) :: rest, details, cnt, res, hok, p, hp => by
    rcases List.mem_cons.mp hp with h1 | h1
    · subst h1
      rw [aggLoop] at hok
      cases hout : (getTokenHolders token.priceUsd resps).outcome with
      | done holders => exact ⟨holders, rfl⟩
      | failed s =>
        rw [hout] at hok
        simp at hok
      | incomplete =>
        rw [hout] at hok
        simp at hok
    · rw [aggLoop] at hok
      cases hout : (getTokenHolders token.priceUsd resps).outcome with
      | done holders =>
        rw [hout] at hok
        simp only at hok
        exact aggLoop_ok_all_done rest _ _ res hok p h1
      | failed s =>
        rw [hout] at hok
        simp at hok
      | incomplete =>
        rw [hout] at hok
        simp at hok

/-- C7: when the required minimum token count exceeds the number of
supplied tokens, `findHoldersWithMinTokens` raises the configuration error
with zero page requests issued, i.e. before any fetch call, independently
of the supplied response streams. -/
theorem config_error_before_any_fetch (tokens : List (TokenInfo × List PageResp))
    (minTokensRequired : Nat) (hgt : tokens.length < minTokensRequired) :
    findHoldersWithMinTokens tokens minTokensRequired = (.error .config, 0) := by
  rw [findHoldersWithMinTokens, if_pos hgt]

theorem config_error_before_any_fetch_witness :
    findHoldersWithMinTokens [(⟨"tokA", 1⟩, sampleResps)] 2 = (.error .config, 0) :=
  config_error_before_any_fetch [(⟨"tokA", 1⟩, sampleResps)] 2 (by decide)

/-- C3: a non-success response that is not a 429 makes the fetch loop abort
at once, returning the thrown status and no holder data; an ok result of
`findHoldersWithMinTokens` implies every token's fetch terminated normally;
and if any token's fetch cannot terminate normally the whole run returns an
error, so no qualified-holder output (not even from earlier tokens) is
produced. -/
theorem fatal_fetch_aborts_run (r : PageResp) (hok : r.ok = false)
    (h429 : r.status ≠ 429) :
    (∀ (priceUsd : ℚ) (m : HolderMap) (page : Nat) (rs : List PageResp),
      fetchGo priceUsd m page (r :: rs) = ⟨.failed r.status, [page], 0⟩) ∧
    (∀ (tokens : List (TokenInfo × List PageResp)) (minTokensRequired : Nat) res n,
      findHoldersWithMinTokens tokens minTokensRequired = (.ok res, n) →
      ∀ p ∈ tokens, ∃ hs, (getTokenHolders p.1.priceUsd p.2).outcome = .done hs) ∧
    (∀ (tokens : List (TokenInfo × List PageResp)) (minTokensRequired : Nat),
      ∀ p ∈ tokens, (∀ hs, (getTokenHolders p.1.priceUsd p.2).outcome ≠ .done hs) →
      ∃ e n, findHoldersWithMinTokens tokens minTokensRequired = (.error e, n)) := by
  have hmain : ∀ (tokens : List (TokenInfo × List PageResp)) (minTokensRequired : Nat) res n,
      findHoldersWithMinTokens tokens minTokensRequired = (.ok res, n) →
      ∀ p ∈ tokens, ∃ hs, (getTokenHolders p.1.priceUsd p.2).outcome = .done hs := by
    intro tokens minTokensRequired res n hres p hp
    rw [findHoldersWithMinTokens] at hres
    by_cases hcfg : tokens.length < minTokensRequired
    · rw [if_pos hcfg] at hres
      simp at hres
    · rw [if_neg hcfg] at hres
      rcases hagg : aggLoop tokens [] [] with ⟨exc, n2⟩
      rw [hagg] at hres
      cases exc with
      | error e => simp at hres
      | ok pr =>
        exact aggLoop_ok_all_done tokens [] [] pr (by rw [hagg]) p hp
  refine ⟨?_, hmain, ?_⟩
  · intro priceUsd m page rs
    rw [fetchGo, if_pos hok, if_neg h429]
  · intro tokens minTokensRequired p hp hnot
    rcases hres : findHoldersWithMinTokens tokens minTokensRequired with ⟨exc, n⟩
    cases exc with
    | error e => exact ⟨e, n, rfl⟩
    | ok res =>
      obtain ⟨hs, hdone⟩ := hmain tokens minTokensRequired res n hres p hp
      exact absurd hdone (hnot hs)

theorem fatal_fetch_aborts_run_witness :
    fetchGo 1 [] 1 [⟨false, 500, none⟩] = ⟨.failed 500, [1], 0⟩ :=
  (fatal_fetch_aborts_run ⟨false, 500, none⟩ rfl (by decide)).1 1 [] 1 []

/-- Stream delivering a single account record with amount 0, then the
empty terminating page. -/
def zeroAmountResps : List PageResp :=
  [⟨true, 200, some [⟨"acct1", "mintX", "zoe", 0⟩]⟩, ⟨true, 200, some []⟩]

/-- C9 counterexample: the loop of `getTokenHolders` inserts an owner into
the holder map even when its accumulated balance is zero, so the returned
holder set can contain an address with a zero balance (here the single
record has amount 0 and its owner is still returned). -/
theorem zero_balance_holder_in_output :
    ∃ hs, (getTokenHolders 1 zeroAmountResps).outcome = .done hs ∧
      ∃ h ∈ hs, h.amount = 0 ∧ h.address = "zoe" :=
  ⟨_, rfl, by decide⟩

/-- C9 (amended): provided every consumed account record has a positive
amount, every holder returned by `getTokenHolders` has a positive
accumulated balance. (The unamended claim fails because the code never
filters zero balances; see the counterexample.) -/
theorem holders_positive_when_records_positive (priceUsd : ℚ)
    (resps : List PageResp) (hs : List TokenHolder)
    (hdone : (getTokenHolders priceUsd resps).outcome = .done hs)
    (hpos : ∀ x ∈ consumedAccounts resps, 0 < x.amount) :
    ∀ h ∈ hs, 0 < h.amount := by
  intro h hm
  have hspec := fetchGo_done_spec priceUsd resps [] 1 [] (mapInv_nil priceUsd) hs hdone h hm
  rw [List.nil_append] at hspec
  obtain ⟨hamt, _, hown⟩ := hspec
  obtain ⟨x, hx, hxo⟩ := List.mem_map.mp hown
  have hxf : x ∈ (consumedAccounts resps).filter (fun y => y.owner = h.address) :=
    List.mem_filter.mpr ⟨hx, by simp [hxo]⟩
  have hle : x.amount ≤ sumOwned (consumedAccounts resps) h.address := by
    refine List.single_le_sum (fun y _ => Nat.zero_le y) _ ?_
    exact List.mem_map.mpr ⟨x, hxf, rfl⟩
  have hxpos := hpos x hx
  omega

theorem holders_positive_when_records_positive_witness :
    ∃ hs, (getTokenHolders 2 sampleResps).outcome = .done hs ∧
      ∀ h ∈ hs, 0 < h.amount :=
  ⟨_, rfl, holders_positive_when_records_positive 2 sampleResps _ rfl (by decide)⟩

theorem fetchGo_trace_length (priceUsd : ℚ) :
    ∀ (resps : List PageResp) (m : HolderMap) (page : Nat),
    (fetchGo priceUsd m page resps).pagesRequested.length ≤ resps.length
  | [], m, page => by simp [fetchGo]
  | r :: rs, m, page => by
    by_cases hok : r.ok = false
    · by_cases h429 : r.status = 429
      · rw [fetchGo, if_pos hok, if_pos h429]
        simpa using fetchGo_trace_length priceUsd rs m page
      · rw [fetchGo, if_pos hok, if_neg h429]
        simp
    · cases hres : r.result with
      | none =>
        rw [fetchGo, if_neg hok, hres]
        simp
      | some accs =>
        by_cases hlen : accs.length = 0
        · rw [fetchGo, if_neg hok, hres]
          simp only [if_pos hlen]
          simp
        · rw [fetchGo, if_neg hok, hres]
          simp only [if_neg hlen]
          simpa using fetchGo_trace_length priceUsd rs _ (page + 1)

theorem fetchGo_trace_ne_nil (priceUsd : ℚ) (m : HolderMap) (page : Nat)
    (resps : List PageResp) (hne : resps ≠ []) :
    (fetchGo priceUsd m page resps).pagesRequested ≠ [] := by
  intro hc
  have := fetchGo_head_page priceUsd m page resps hne
  rw [hc] at this
  simp at this

theorem fetchGo_trace_step (priceUsd : ℚ) :
    ∀ (resps : List PageResp) (m : HolderMap) (page : Nat) (i p q : Nat) (r : PageResp),
    (fetchGo priceUsd m page resps).pagesRequested[i]? = some p →
    (fetchGo priceUsd m page resps).pagesRequested[i + 1]? = some q →
    resps[i]? = some r →
    q = p + (if isDataPage r then 1 else 0)
  | [], m, page, i, p, q, r, hp, hq, hr => by simp [fetchGo] at hp
  | r0 :: rs, m, page, i, p, q, r, hp, hq, hr => by
    by_cases hok : r0.ok = false
    · by_cases h429 : r0.status = 429
      · rw [fetchGo, if_pos hok, if_pos h429] at hp hq
        simp only at hp hq
        cases i with
        | zero =>
          simp only [List.getElem?_cons_zero, Option.some.injEq] at hp
          simp only [List.getElem?_cons_succ] at hq
          simp only [List.getElem?_cons_zero, Option.some.injEq] at hr
          have hrs : rs ≠ [] := by
            intro hc
            subst hc
            simp [fetchGo] at hq
          have hhead := fetchGo_head_page priceUsd m page rs hrs
          rw [List.head?_eq_getElem?, hq] at hhead
          have hr0 : isDataPage r = false := by
            simp [isDataPage, ← hr, hok]
          simp only [Option.some.injEq] at hhead
          simp only [hr0, Bool.false_eq_true, if_false]
          omega
        | succ i2 =>
          simp only [List.getElem?_cons_succ] at hp hq hr
          exact fetchGo_trace_step priceUsd rs m page i2 p q r hp hq hr
      · rw [fetchGo, if_pos hok, if_neg h429] at hp hq
        simp only at hp hq
        cases i with
        | zero => simp at hq
        | succ i2 => simp at hp
    · cases hres : r0.result with
      | none =>
        rw [fetchGo, if_neg hok, hres] at hp hq
        simp only at hp hq
        cases i with
        | zero => simp at hq
        | succ i2 => simp at hp
      | some accs =>
        by_cases hlen : accs.length = 0
        · rw [fetchGo, if_neg hok, hres] at hp hq
          simp only [if_pos hlen] at hp hq
          cases i with
          | zero => simp at hq
          | succ i2 => simp at hp
        · rw [fetchGo, if_neg hok, hres] at hp hq
          simp only [if_neg hlen] at hp hq
          cases i with
          | zero =>
            simp only [List.getElem?_cons_zero, Option.some.injEq] at hp
            simp only [List.getElem?_cons_succ] at hq
            simp only [List.getElem?_cons_zero, Option.some.injEq] at hr
            have hrs : rs ≠ [] := by
              intro hc
              subst hc
              simp [fetchGo] at hq
            have hhead := fetchGo_head_page priceUsd (processPage priceUsd m accs) (page + 1) rs hrs
            rw [List.head?_eq_getElem?, hq] at hhead
            have hr0 : isDataPage r = true := by
              simp only [isDataPage, ← hr]
              simp only [Bool.not_eq_false] at hok
              simp [hok, hres, hlen]
            simp only [Option.some.injEq] at hhead
            simp only [hr0, if_true]
            omega
          | succ i2 =>
            simp only [List.getElem?_cons_succ] at hp hq hr
            exact fetchGo_trace_step priceUsd rs _ (page + 1) i2 p q r hp hq hr

theorem fetchGo_done_terminates (priceUsd : ℚ) :
    ∀ (resps : List PageResp) (m : HolderMap) (page : Nat) (hs : List TokenHolder),
    (fetchGo priceUsd m page resps).outcome = .done hs →
    ∃ k r, (fetchGo priceUsd m page resps).pagesRequested.length = k + 1 ∧
      resps[k]? = some r ∧ isTerminator r = true ∧
      ∀ j rj, j < k → resps[j]? = some rj → isTerminator rj = false
  | [], m, page, hs, hdone => by simp [fetchGo] at hdone
  | r0 :: rs, m, page, hs, hdone => by
    by_cases hok : r0.ok = false
    · by_cases h429 : r0.status = 429
      · rw [fetchGo, if_pos hok, if_pos h429] at hdone ⊢
        simp only at hdone ⊢
        obtain ⟨k, r, hlen2, hk, hterm, hbefore⟩ :=
          fetchGo_done_terminates priceUsd rs m page hs hdone
        refine ⟨k + 1, r, by simpa using hlen2, by simpa using hk, hterm, ?_⟩
        intro j rj hj hrj
        cases j with
        | zero =>
          simp only [List.getElem?_cons_zero, Option.some.injEq] at hrj
          simp [isTerminator, ← hrj, hok]
        | succ j2 =>
          simp only [List.getElem?_cons_succ] at hrj
          exact hbefore j2 rj (by omega) hrj
      · rw [fetchGo, if_pos hok, if_neg h429] at hdone
        simp at hdone
    · cases hres : r0.result with
      | none =>
        rw [fetchGo, if_neg hok, hres] at hdone ⊢
        refine ⟨0, r0, by simp, by simp, ?_, by omega⟩
        simp only [isTerminator, hres]
        simp only [Bool.not_eq_false] at hok
        simp [hok]
      | some accs =>
        by_cases hlen : accs.length = 0
        · rw [fetchGo, if_neg hok, hres] at hdone ⊢
          simp only [if_pos hlen] at hdone ⊢
          refine ⟨0, r0, by simp, by simp, ?_, by omega⟩
          simp only [isTerminator, hres]
          simp only [Bool.not_eq_false] at hok
          simp [hok, hlen]
        · rw [fetchGo, if_neg hok, hres] at hdone ⊢
          simp only [if_neg hlen] at hdone ⊢
          obtain ⟨k, r, hlen2, hk, hterm, hbefore⟩ :=
            fetchGo_done_terminates priceUsd rs _ (page + 1) hs hdone
          refine ⟨k + 1, r, by simpa using hlen2, by simpa using hk, hterm, ?_⟩
          intro j rj hj hrj
          cases j with
          | zero =>
            simp only [List.getElem?_cons_zero, Option.some.injEq] at hrj
            simp only [isTerminator, ← hrj, hres]
            simp [hlen]
          | succ j2 =>
            simp only [List.getElem?_cons_succ] at hrj
            exact hbefore j2 rj (by omega) hrj

/-- C4: pages are requested starting at page 1, the page number advances by
exactly 1 after each data page (and is repeated otherwise), the number of
requests never exceeds the supplied responses, and on normal termination
the last request is the first response that is empty or absent — no request
is issued after it. -/
theorem pagination_starts_at_one_and_stops_at_first_empty (priceUsd : ℚ)
    (resps : List PageResp) :
    ((getTokenHolders priceUsd resps).pagesRequested.length ≤ resps.length) ∧
    (resps ≠ [] → (getTokenHolders priceUsd resps).pagesRequested.head? = some 1) ∧
    (∀ i p q r, (getTokenHolders priceUsd resps).pagesRequested[i]? = some p →
      (getTokenHolders priceUsd resps).pagesRequested[i + 1]? = some q →
      resps[i]? = some r → q = p + (if isDataPage r then 1 else 0)) ∧
    (∀ hs, (getTokenHolders priceUsd resps).outcome = .done hs →
      ∃ k r, (getTokenHolders priceUsd resps).pagesRequested.length = k + 1 ∧
        resps[k]? = some r ∧ isTerminator r = true ∧
        ∀ j rj, j < k → resps[j]? = some rj → isTerminator rj = false) :=
  ⟨fetchGo_trace_length priceUsd resps [] 1,
   fetchGo_head_page priceUsd [] 1 resps,
   fun i p q r hp hq hr => fetchGo_trace_step priceUsd resps [] 1 i p q r hp hq hr,
   fun hs hdone => fetchGo_done_terminates priceUsd resps [] 1 hs hdone⟩

theorem pagination_starts_at_one_witness :
    (getTokenHolders 2 sampleResps).pagesRequested.head? = some 1 ∧
    (getTokenHolders 2 sampleResps).pagesRequested = [1, 2] :=
  ⟨(pagination_starts_at_one_and_stops_at_first_empty 2 sampleResps).2.1 (by decide),
   by decide⟩

/-- JavaScript `new Set(list)` followed by a spread: deduplicate keeping
first occurrences, preserving insertion order. -/
def jsSet (l : List String) : List String :=
  l.foldl (fun acc a => if a ∈ acc then acc else acc ++ [a]) []

/-- `findCommonHolders` of the second script file (lines 75-110), applied
to already-fetched per-token holder lists (the `Promise.all` fetches are
external traffic; `holderDetails` is returned unchanged alongside).  With
an empty token list, `holdersArrays[0]` is `undefined` and the spread
`[...holdersArrays[0]]` throws a `TypeError`, modelled by `none`. -/
def findCommonHolders (tokenResults : List (String × List TokenHolder0)) :
    Option (List String × List (String × List TokenHolder0)) :=
  match tokenResults.map (fun p => jsSet (p.2.map TokenHolder0.address)) with
  | [] => none
  | first :: rest =>
    some (rest.foldl (fun commonHolders s => commonHolders.filter (fun h => s.contains h)) first,
      tokenResults)

/-- C10: invoking the intersection aggregation with an empty
token-identifier list does not produce a common-holders list: the seed
`holdersArrays[0]` is absent and the run fails with a runtime error
(modelled by `none`). -/
theorem common_holders_empty_input_fails :
    findCommonHolders [] = none :=
  rfl

theorem mem_foldl_jsSet :
    ∀ (l acc : List String) (a : String),
    a ∈ List.foldl (fun acc x => if x ∈ acc then acc else acc ++ [x]) acc l ↔ a ∈ acc ∨ a ∈ l
  | [], acc, a => by simp
  | b :: t, acc, a => by
    rw [List.foldl_cons, mem_foldl_jsSet t _ a]
    by_cases hb : b ∈ acc
    · simp only [if_pos hb]
      constructor
      · rintro (h | h)
        · exact Or.inl h
        · exact Or.inr (List.mem_cons_of_mem _ h)
      · rintro (h | h)
        · exact Or.inl h
        · rcases List.mem_cons.mp h with h1 | h1
          · exact Or.inl (h1 ▸ hb)
          · exact Or.inr h1
    · simp only [if_neg hb, List.mem_append, List.mem_singleton]
      constructor
      · rintro ((h | h) | h)
        · exact Or.inl h
        · exact Or.inr (by simp [h])
        · exact Or.inr (List.mem_cons_of_mem _ h)
      · rintro (h | h)
        · exact Or.inl (Or.inl h)
        · rcases List.mem_cons.mp h with h1 | h1
          · exact Or.inl (Or.inr h1)
          · exact Or.inr h1

theorem mem_jsSet (l : List String) (a : String) : a ∈ jsSet l ↔ a ∈ l := by
  rw [jsSet, mem_foldl_jsSet]
  simp

theorem mem_foldl_filter_contains :
    ∀ (rest : List (List String)) (acc : List String) (a : String),
    a ∈ rest.foldl (fun commonHolders s => commonHolders.filter (fun h => s.contains h)) acc ↔
      a ∈ acc ∧ ∀ s ∈ rest, a ∈ s
  | [], acc, a => by simp
  | s :: t, acc, a => by
    rw [List.foldl_cons, mem_foldl_filter_contains t _ a]
    simp only [List.mem_filter, List.mem_cons]
    constructor
    · rintro ⟨⟨h1, h2⟩, h3⟩
      refine ⟨h1, ?_⟩
      rintro s2 (h4 | h4)
      · subst h4
        simpa using h2
      · exact h3 s2 h4
    · rintro ⟨h1, h2⟩
      exact ⟨⟨h1, by simpa using h2 s (Or.inl rfl)⟩, fun s2 h4 => h2 s2 (Or.inr h4)⟩

/-- Number of entries of a holder list carrying the given address (the
`forEach` in `findHoldersWithMinTokens` runs once per entry). -/
def occCount (hs : List TokenHolder) (a : String) : Nat :=
  (hs.filter (fun h => h.address = a)).length

/-- Sum of the USD values of the entries of a holder list carrying the
given address. -/
def valSumOf (hs : List TokenHolder) (a : String) : ℚ :=
  ((hs.filter (fun h => h.address = a)).map TokenHolder.valueUsd).sum

/-- Total number of (token, entry) occurrences of an address across all
per-token holder lists. -/
def totalOcc (pairs : List (TokenInfo × List TokenHolder)) (a : String) : Nat :=
  (pairs.map (fun p => occCount p.2 a)).sum

/-- Cumulative USD value of an address across all per-token holder lists. -/
def totalValSum (pairs : List (TokenInfo × List TokenHolder)) (a : String) : ℚ :=
  (pairs.map (fun p => valSumOf p.2 a)).sum

theorem occCount_cons (h : TokenHolder) (t : List TokenHolder) (a : String) :
    occCount (h :: t) a = occCount t a + (if h.address = a then 1 else 0) := by
  by_cases ha : h.address = a
  · simp [occCount, List.filter_cons, ha]
  · simp [occCount, List.filter_cons, ha]

theorem valSumOf_cons (h : TokenHolder) (t : List TokenHolder) (a : String) :
    valSumOf (h :: t) a = (if h.address = a then h.valueUsd else 0) + valSumOf t a := by
  by_cases ha : h.address = a
  · simp [valSumOf, List.filter_cons, ha]
  · simp [valSumOf, List.filter_cons, ha]

theorem valSumOf_eq_zero_of_occ_zero {hs : List TokenHolder} {a : String}
    (h : occCount hs a = 0) : valSumOf hs a = 0 := by
  rw [occCount, List.length_eq_zero] at h
  simp [valSumOf, h]

theorem jget_foldl_accumHolder (token : TokenInfo) :
    ∀ (hs : List TokenHolder) (cnt : List (String × HolderSummary)) (a : String),
    (occCount hs a = 0 → jget (hs.foldl (accumHolder token) cnt) a = jget cnt a) ∧
    (0 < occCount hs a →
      ∃ hd, jget (hs.foldl (accumHolder token) cnt) a =
        some ⟨((jget cnt a).getD ⟨a, 0, [], 0⟩).address,
          ((jget cnt a).getD ⟨a, 0, [], 0⟩).tokenCount + occCount hs a,
          hd,
          ((jget cnt a).getD ⟨a, 0, [], 0⟩).totalValueUsd + valSumOf hs a⟩)
  | [], cnt, a => ⟨fun _ => rfl, fun hpos => by simp [occCount] at hpos⟩
  | h :: t, cnt, a => by
    rw [List.foldl_cons]
    by_cases ha : h.address = a
    · have hkey : jget (accumHolder token cnt h) a = some
          { (match jget cnt h.address with
             | none => (⟨h.address, 0, [], 0⟩ : HolderSummary)
             | some s => s) with
            tokenCount := (match jget cnt h.address with
             | none => (⟨h.address, 0, [], 0⟩ : HolderSummary)
             | some s => s).tokenCount + 1
            holdings := jset (match jget cnt h.address with
             | none => (⟨h.address, 0, [], 0⟩ : HolderSummary)
             | some s => s).holdings token.address h
            totalValueUsd := (match jget cnt h.address with
             | none => (⟨h.address, 0, [], 0⟩ : HolderSummary)
             | some s => s).totalValueUsd + h.valueUsd } := by
        rw [accumHolder]
        rw [← ha]
        exact jget_jset_self cnt h.address _
      have hbase : (match jget cnt h.address with
          | none => (⟨h.address, 0, [], 0⟩ : HolderSummary)
          | some s => s) = (jget cnt a).getD ⟨a, 0, [], 0⟩ := by
        rw [ha]
        cases jget cnt a <;> rfl
      rw [hbase] at hkey
      rcases jget_foldl_accumHolder token t (accumHolder token cnt h) a with ⟨hzero, hpos⟩
      constructor
      · intro hc
        rw [occCount_cons, if_pos ha] at hc
        omega
      · intro _
        by_cases hocc : occCount t a = 0
        · refine ⟨jset ((jget cnt a).getD ⟨a, 0, [], 0⟩).holdings token.address h, ?_⟩
          rw [hzero hocc, hkey]
          rw [occCount_cons, if_pos ha, hocc, valSumOf_cons, if_pos ha,
            valSumOf_eq_zero_of_occ_zero hocc]
          simp
        · obtain ⟨hd, hres⟩ := hpos (Nat.pos_of_ne_zero hocc)
          refine ⟨hd, ?_⟩
          rw [hres, hkey]
          simp only [Option.getD_some, occCount_cons, if_pos ha, valSumOf_cons, if_pos ha]
          refine congrArg some ?_
          simp only [HolderSummary.mk.injEq]
          exact ⟨trivial, by omega, trivial, by ring⟩
    · have hkey : jget (accumHolder token cnt h) a = jget cnt a := by
        rw [accumHolder]
        exact jget_jset_ne cnt h.address a _ (fun hc => ha hc.symm)
      rcases jget_foldl_accumHolder token t (accumHolder token cnt h) a with ⟨hzero, hpos⟩
      constructor
      · intro hc
        rw [occCount_cons, if_neg ha] at hc
        rw [hzero (by omega), hkey]
      · intro hc
        rw [occCount_cons, if_neg ha] at hc
        obtain ⟨hd, hres⟩ := hpos (by omega)
        refine ⟨hd, ?_⟩
        rw [hres, hkey, occCount_cons, if_neg ha, valSumOf_cons, if_neg ha]
        refine congrArg some ?_
        simp only [HolderSummary.mk.injEq]
        exact ⟨trivial, by omega, trivial, by ring⟩

theorem nat_sum_eq_zero_iff : ∀ (l : List Nat), l.sum = 0 ↔ ∀ x ∈ l, x = 0
  | [] => by simp
  | x :: t => by
    simp only [List.sum_cons, Nat.add_eq_zero, List.mem_cons]
    rw [nat_sum_eq_zero_iff t]
    constructor
    · rintro ⟨h1, h2⟩ y (hy | hy)
      · exact hy ▸ h1
      · exact h2 y hy
    · intro h
      exact ⟨h x (Or.inl rfl), fun y hy => h y (Or.inr hy)⟩

theorem jget_accumulate_from :
    ∀ (pairs : List (TokenInfo × List TokenHolder)) (cnt : List (String × HolderSummary))
      (a : String),
    (totalOcc pairs a = 0 →
      jget (pairs.foldl (fun c p => p.2.foldl (accumHolder p.1) c) cnt) a = jget cnt a) ∧
    (0 < totalOcc pairs a →
      ∃ hd, jget (pairs.foldl (fun c p => p.2.foldl (accumHolder p.1) c) cnt) a =
        some ⟨((jget cnt a).getD ⟨a, 0, [], 0⟩).address,
          ((jget cnt a).getD ⟨a, 0, [], 0⟩).tokenCount + totalOcc pairs a,
          hd,
          ((jget cnt a).getD ⟨a, 0, [], 0⟩).totalValueUsd + totalValSum pairs a⟩)
  | [], cnt, a => ⟨fun _ => rfl, fun hpos => by simp [totalOcc] at hpos⟩
  | p :: rest, cnt, a => by
    rw [List.foldl_cons]
    have htot : totalOcc (p :: rest) a = occCount p.2 a + totalOcc rest a := by
      simp [totalOcc]
    have hval : totalValSum (p :: rest) a = valSumOf p.2 a + totalValSum rest a := by
      simp [totalValSum]
    rcases jget_foldl_accumHolder p.1 p.2 cnt a with ⟨hin0, hinp⟩
    rcases jget_accumulate_from rest (p.2.foldl (accumHolder p.1) cnt) a with ⟨hout0, houtp⟩
    by_cases hocc : occCount p.2 a = 0
    · have hkey := hin0 hocc
      constructor
      · intro hc
        rw [htot, hocc, Nat.zero_add] at hc
        rw [hout0 hc, hkey]
      · intro hc
        rw [htot, hocc, Nat.zero_add] at hc
        obtain ⟨hd, hres⟩ := houtp hc
        refine ⟨hd, ?_⟩
        rw [hres, hkey, htot, hocc, hval, valSumOf_eq_zero_of_occ_zero hocc]
        refine congrArg some ?_
        simp only [HolderSummary.mk.injEq]
        exact ⟨trivial, by omega, trivial, by ring⟩
    · obtain ⟨hd1, hkey⟩ := hinp (Nat.pos_of_ne_zero hocc)
      constructor
      · intro hc
        rw [htot] at hc
        omega
      · intro _
        by_cases hrest : totalOcc rest a = 0
        · refine ⟨hd1, ?_⟩
          rw [hout0 hrest, hkey, htot, hval, hrest]
          have hvz : totalValSum rest a = 0 := by
            rcases rest with _ | ⟨q, qs⟩
            · rfl
            · rw [totalValSum]
              have hall : ∀ x ∈ ((q :: qs).map (fun p2 => valSumOf p2.2 a)), x = 0 := by
                intro x hx
                obtain ⟨p2, hp2, hpx⟩ := List.mem_map.mp hx
                have hocc2 : occCount p2.2 a = 0 :=
                  (nat_sum_eq_zero_iff _).mp hrest _ (List.mem_map.mpr ⟨p2, hp2, rfl⟩)
                rw [← hpx]
                exact valSumOf_eq_zero_of_occ_zero hocc2
              exact List.sum_eq_zero hall
          rw [hvz]
          refine congrArg some ?_
          simp only [HolderSummary.mk.injEq]
          exact ⟨trivial, by omega, trivial, by ring⟩
        · obtain ⟨hd2, hres⟩ := houtp (Nat.pos_of_ne_zero hrest)
          refine ⟨hd2, ?_⟩
          rw [hres, hkey]
          simp only [Option.getD_some, htot, hval]
          refine congrArg some ?_
          simp only [HolderSummary.mk.injEq]
          exact ⟨trivial, by omega, trivial, by ring⟩

theorem jget_accumulate (pairs : List (TokenInfo × List TokenHolder)) (a : String) :
    (totalOcc pairs a = 0 → jget (accumulate pairs) a = none) ∧
    (0 < totalOcc pairs a →
      ∃ hd, jget (accumulate pairs) a = some ⟨a, totalOcc pairs a, hd, totalValSum pairs a⟩) := by
  rcases jget_accumulate_from pairs [] a with ⟨h0, hp⟩
  refine ⟨fun hc => by rw [accumulate, h0 hc]; rfl, fun hc => ?_⟩
  obtain ⟨hd, hres⟩ := hp hc
  refine ⟨hd, ?_⟩
  rw [accumulate, hres]
  simp [jget]

/-- Structural invariant of the `holderCounts` map: distinct keys, each
summary keyed by its own address. -/
structure CntInv (cnt : List (String × HolderSummary)) : Prop where
  nodupKeys : (cnt.map Prod.fst).Nodup
  addrEq : ∀ p ∈ cnt, p.2.address = p.1

theorem cntInv_nil : CntInv [] := ⟨by simp, by simp⟩

theorem accumHolder_cntInv {cnt : List (String × HolderSummary)} (token : TokenInfo)
    (h : TokenHolder) (hinv : CntInv cnt) : CntInv (accumHolder token cnt h) := by
  simp only [accumHolder]
  refine ⟨jset_keys_nodup hinv.nodupKeys, ?_⟩
  intro p hp
  rcases mem_jset_of_nodup hinv.nodupKeys hp with h1 | h1
  · subst h1
    simp only
    cases hj : jget cnt h.address with
    | none => simp [hj]
    | some s =>
      simp only [hj]
      exact hinv.addrEq (h.address, s) (jget_mem hj)
  · exact hinv.addrEq p h1.1

theorem foldl_accumHolder_cntInv (token : TokenInfo) :
    ∀ (hs : List TokenHolder) {cnt : List (String × HolderSummary)},
    CntInv cnt → CntInv (hs.foldl (accumHolder token) cnt)
  | [], _, hinv => hinv
  | h :: t, _, hinv => foldl_accumHolder_cntInv token t (accumHolder_cntInv token h hinv)

theorem accumulate_from_cntInv :
    ∀ (pairs : List (TokenInfo × List TokenHolder)) {cnt : List (String × HolderSummary)},
    CntInv cnt → CntInv (pairs.foldl (fun c p => p.2.foldl (accumHolder p.1) c) cnt)
  | [], _, hinv => hinv
  | p :: rest, _, hinv => accumulate_from_cntInv rest (foldl_accumHolder_cntInv p.1 p.2 hinv)

theorem accumulate_cntInv (pairs : List (TokenInfo × List TokenHolder)) :
    CntInv (accumulate pairs) :=
  accumulate_from_cntInv pairs cntInv_nil

theorem mem_values_iff_jget {cnt : List (String × HolderSummary)} (hinv : CntInv cnt)
    (s : HolderSummary) : s ∈ cnt.map Prod.snd ↔ jget cnt s.address = some s := by
  constructor
  · intro hm
    obtain ⟨p, hp, hps⟩ := List.mem_map.mp hm
    have haddr := hinv.addrEq p hp
    subst hps
    rw [haddr]
    exact jget_of_mem hinv.nodupKeys (by simpa using hp)
  · intro hj
    exact List.mem_map.mpr ⟨(s.address, s), jget_mem hj, rfl⟩

theorem mem_qualify_address_iff (pairs : List (TokenInfo × List TokenHolder))
    (minTok : Nat) (a : String) :
    a ∈ (qualify (accumulate pairs) minTok).map HolderSummary.address ↔
      (0 < totalOcc pairs a ∧ minTok ≤ totalOcc pairs a) := by
  have hinv : CntInv (accumulate pairs) := accumulate_cntInv pairs
  rw [qualify]
  constructor
  · intro hm
    obtain ⟨s, hs, hsa⟩ := List.mem_map.mp hm
    rw [List.mem_insertionSort, List.mem_filter] at hs
    obtain ⟨hsv, hcnt⟩ := hs
    have hj : jget (accumulate pairs) s.address = some s := (mem_values_iff_jget hinv s).mp hsv
    subst hsa
    rcases jget_accumulate pairs s.address with ⟨h0, hp⟩
    by_cases hocc : totalOcc pairs s.address = 0
    · rw [h0 hocc] at hj
      exact absurd hj (by simp)
    · have hpos := Nat.pos_of_ne_zero hocc
      obtain ⟨hd, hres⟩ := hp hpos
      rw [hres] at hj
      have heq := Option.some.inj hj
      refine ⟨hpos, ?_⟩
      have hcount : s.tokenCount = totalOcc pairs s.address := by
        rw [← heq]
      rw [← hcount]
      simpa using hcnt
  · rintro ⟨hpos, hge⟩
    obtain ⟨hd, hres⟩ := (jget_accumulate pairs a).2 hpos
    have hmem : (⟨a, totalOcc pairs a, hd, totalValSum pairs a⟩ : HolderSummary) ∈
        (accumulate pairs).map Prod.snd :=
      (mem_values_iff_jget hinv _).mpr hres
    refine List.mem_map.mpr ⟨⟨a, totalOcc pairs a, hd, totalValSum pairs a⟩, ?_, rfl⟩
    rw [List.mem_insertionSort, List.mem_filter]
    exact ⟨hmem, by simpa using hge⟩

theorem qualify_member_spec (pairs : List (TokenInfo × List TokenHolder)) (minTok : Nat) :
    ∀ s ∈ qualify (accumulate pairs) minTok,
      s.tokenCount = totalOcc pairs s.address ∧
      s.totalValueUsd = totalValSum pairs s.address ∧
      minTok ≤ s.tokenCount := by
  intro s hs
  have hinv : CntInv (accumulate pairs) := accumulate_cntInv pairs
  rw [qualify, List.mem_insertionSort, List.mem_filter] at hs
  obtain ⟨hsv, hcnt⟩ := hs
  have hj := (mem_values_iff_jget hinv s).mp hsv
  rcases jget_accumulate pairs s.address with ⟨h0, hp⟩
  by_cases hocc : totalOcc pairs s.address = 0
  · rw [h0 hocc] at hj
    exact absurd hj (by simp)
  · obtain ⟨hd, hres⟩ := hp (Nat.pos_of_ne_zero hocc)
    rw [hres] at hj
    have heq := Option.some.inj hj
    refine ⟨by rw [← heq], by rw [← heq], by simpa using hcnt⟩

theorem qualify_sorted (cnt : List (String × HolderSummary)) (minTok : Nat) :
    List.Sorted (fun s t : HolderSummary => t.totalValueUsd ≤ s.totalValueUsd)
      (qualify cnt minTok) := by
  haveI : IsTotal HolderSummary (fun s t : HolderSummary => t.totalValueUsd ≤ s.totalValueUsd) :=
    ⟨fun a b => le_total b.totalValueUsd a.totalValueUsd⟩
  haveI : IsTrans HolderSummary (fun s t : HolderSummary => t.totalValueUsd ≤ s.totalValueUsd) :=
    ⟨fun _ _ _ hab hbc => le_trans hbc hab⟩
  exact List.sorted_insertionSort _ _

theorem occCount_le_one :
    ∀ {hs : List TokenHolder} {a : String},
    (hs.map TokenHolder.address).Nodup → occCount hs a ≤ 1
  | [], a, _ => by simp [occCount]
  | h :: t, a, hnd => by
    simp only [List.map_cons, List.nodup_cons] at hnd
    rw [occCount_cons]
    by_cases ha : h.address = a
    · have hzero : occCount t a = 0 := by
        rw [occCount, List.length_eq_zero, List.filter_eq_nil_iff]
        intro x hx hc
        simp only [decide_eq_true_eq] at hc
        exact hnd.1 (by rw [ha, ← hc]; exact List.mem_map.mpr ⟨x, hx, rfl⟩)
      simp [hzero, ha]
    · have hrec := @occCount_le_one t a hnd.2
      simp only [if_neg ha]
      omega

theorem occCount_pos_iff (hs : List TokenHolder) (a : String) :
    0 < occCount hs a ↔ a ∈ hs.map TokenHolder.address := by
  rw [occCount, ← List.countP_eq_length_filter, List.countP_pos_iff]
  constructor
  · rintro ⟨h, hm, hp⟩
    simp only [decide_eq_true_eq] at hp
    exact List.mem_map.mpr ⟨h, hm, hp⟩
  · intro hm
    obtain ⟨h, hm2, hp⟩ := List.mem_map.mp hm
    exact ⟨h, hm2, by simp [hp]⟩

theorem totalOcc_eq_countP :
    ∀ {pairs : List (TokenInfo × List TokenHolder)} {a : String},
    (∀ p ∈ pairs, (p.2.map TokenHolder.address).Nodup) →
    totalOcc pairs a = pairs.countP (fun p => decide (a ∈ p.2.map TokenHolder.address))
  | [], _, _ => rfl
  | p :: rest, a, hnd => by
    have hrec := @totalOcc_eq_countP rest a
      (fun q hq => hnd q (List.mem_cons_of_mem _ hq))
    have hocc1 := @occCount_le_one p.2 a (hnd p (List.mem_cons_self _ _))
    rw [List.countP_cons]
    have htot : totalOcc (p :: rest) a = occCount p.2 a + totalOcc rest a := by
      simp [totalOcc]
    rw [htot, hrec]
    by_cases hm : a ∈ p.2.map TokenHolder.address
    · have hpos : 0 < occCount p.2 a := (occCount_pos_iff _ _).mpr hm
      rw [if_pos (show decide (a ∈ p.2.map TokenHolder.address) = true by simpa using hm)]
      omega
    · have hz : occCount p.2 a = 0 := by
        by_contra hc
        exact hm ((occCount_pos_iff _ _).mp (Nat.pos_of_ne_zero hc))
      simp [hm, hz]

/-- The specification's "distinct-token count" of an address: the number of
distinct token addresses of the supplied list in whose holder list the
address appears. (Stated from the spec's words, for comparison with the
count the code computes.) -/
def distinctTokenCount (pairs : List (TokenInfo × List TokenHolder)) (a : String) : Nat :=
  ((pairs.filter (fun p => decide (a ∈ p.2.map TokenHolder.address))).map
    (fun p => p.1.address)).dedup.length

theorem distinctTokenCount_eq_countP {pairs : List (TokenInfo × List TokenHolder)}
    {a : String} (htok : (pairs.map (fun p => p.1.address)).Nodup) :
    distinctTokenCount pairs a =
      pairs.countP (fun p => decide (a ∈ p.2.map TokenHolder.address)) := by
  rw [distinctTokenCount]
  have hsub : List.Sublist
      (pairs.filter (fun p => decide (a ∈ p.2.map TokenHolder.address))) pairs :=
    List.filter_sublist _
  have hnd2 := List.Nodup.sublist (hsub.map (fun p => p.1.address)) htok
  rw [List.Nodup.dedup hnd2, List.length_map, List.countP_eq_length_filter]

/-- C6 (amended): under the data-model invariants (no token address occurs
twice in the supplied list, and no address occurs twice within one token's
holder list), the threshold result contains exactly the addresses appearing
in at least one holder list whose distinct-token count reaches the minimum;
each returned summary carries that address's cumulative USD value across
the tokens holding it; and the result is sorted descending by that value.
(Without the first invariant the code counts list occurrences, not distinct
tokens; see the counterexample.) -/
theorem threshold_filters_by_count_and_ranks_by_value
    (pairs : List (TokenInfo × List TokenHolder)) (minTok : Nat)
    (htok : (pairs.map (fun p => p.1.address)).Nodup)
    (hhold : ∀ p ∈ pairs, (p.2.map TokenHolder.address).Nodup) :
    (∀ a, a ∈ (qualify (accumulate pairs) minTok).map HolderSummary.address ↔
      (0 < distinctTokenCount pairs a ∧ minTok ≤ distinctTokenCount pairs a)) ∧
    (∀ s ∈ qualify (accumulate pairs) minTok,
      s.totalValueUsd = totalValSum pairs s.address ∧
      s.tokenCount = distinctTokenCount pairs s.address) ∧
    List.Sorted (fun s t : HolderSummary => t.totalValueUsd ≤ s.totalValueUsd)
      (qualify (accumulate pairs) minTok) := by
  have hdc : ∀ b : String, distinctTokenCount pairs b = totalOcc pairs b := fun b => by
    rw [distinctTokenCount_eq_countP htok, totalOcc_eq_countP hhold]
  refine ⟨fun a => ?_, fun s hs => ?_, qualify_sorted _ _⟩
  · rw [hdc a]
    exact mem_qualify_address_iff pairs minTok a
  · obtain ⟨h1, h2, _⟩ := qualify_member_spec pairs minTok s hs
    exact ⟨h2, by rw [hdc s.address, h1]⟩

/-- Concrete input with the same token listed twice. -/
def dupTokenPairs : List (TokenInfo × List TokenHolder) :=
  [(⟨"tokA", 1⟩, [⟨"x", 1, 1⟩]), (⟨"tokA", 1⟩, [⟨"x", 1, 1⟩])]

/-- C6 counterexample: with the same token listed twice and minimum 2, the
address x is in the threshold result although the number of distinct tokens
it holds is 1 — the code counts token-list occurrences, not distinct
tokens. -/
theorem threshold_admits_address_below_distinct_count :
    ("x" ∈ (qualify (accumulate dupTokenPairs) 2).map HolderSummary.address) ∧
    distinctTokenCount dupTokenPairs "x" = 1 := by
  constructor
  · rw [mem_qualify_address_iff]
    exact ⟨by decide, by decide⟩
  · decide

/-- Concrete two-token input satisfying the data-model invariants. -/
def twoTokenPairs : List (TokenInfo × List TokenHolder) :=
  [(⟨"tokA", 1⟩, [⟨"x", 5, 5⟩]), (⟨"tokB", 2⟩, [⟨"x", 3, 6⟩, ⟨"y", 1, 2⟩])]

theorem threshold_filters_by_count_witness :
    "x" ∈ (qualify (accumulate twoTokenPairs) 2).map HolderSummary.address ↔
      (0 < distinctTokenCount twoTokenPairs "x" ∧
        2 ≤ distinctTokenCount twoTokenPairs "x") :=
  (threshold_filters_by_count_and_ranks_by_value twoTokenPairs 2
    (by decide) (by decide)).1 "x" 

theorem countP_length_le_iff_all {α : Type} (l : List α) (p : α → Bool) :
    l.length ≤ l.countP p ↔ ∀ x ∈ l, p x = true := by
  constructor
  · intro hle
    have hmax := List.countP_le_length (p := p) (l := l)
    rw [← List.countP_eq_length]
    omega
  · intro hall
    rw [List.countP_eq_length.mpr hall]

/-- C5 (amended): for every nonempty token list whose per-token holder
lists contain each address at most once (the PerTokenHolderSet invariant),
the threshold policy with minimum equal to the number of tokens selects
exactly the address set computed by the intersection policy of the second
script on the same per-token results. (On the empty token list the two
policies disagree — the intersection policy fails — see the
counterexample.) -/
theorem threshold_at_full_count_matches_intersection
    (pairs : List (TokenInfo × List TokenHolder))
    (hne : pairs ≠ [])
    (hhold : ∀ p ∈ pairs, (p.2.map TokenHolder.address).Nodup) :
    ∃ cs det,
      findCommonHolders (pairs.map (fun p => (p.1.address, p.2.map
        (fun h => (⟨h.address, h.amount⟩ : TokenHolder0))))) = some (cs, det) ∧
      ∀ a, (a ∈ (qualify (accumulate pairs) pairs.length).map HolderSummary.address ↔
        a ∈ cs) := by
  obtain ⟨p0, rest, rfl⟩ := List.exists_cons_of_ne_nil hne
  have haddr : ∀ p : TokenInfo × List TokenHolder,
      ((p.2.map (fun h => (⟨h.address, h.amount⟩ : TokenHolder0))).map TokenHolder0.address)
        = p.2.map TokenHolder.address := by
    intro p
    rw [List.map_map]
    rfl
  have hfc : findCommonHolders ((p0 :: rest).map (fun p => (p.1.address, p.2.map
      (fun h => (⟨h.address, h.amount⟩ : TokenHolder0))))) =
      some (((rest.map (fun p => (p.1.address, p.2.map
        (fun h => (⟨h.address, h.amount⟩ : TokenHolder0))))).map
          (fun q => jsSet (q.2.map TokenHolder0.address))).foldl
        (fun commonHolders s => commonHolders.filter (fun h => s.contains h))
        (jsSet ((p0.2.map (fun h => (⟨h.address, h.amount⟩ : TokenHolder0))).map
          TokenHolder0.address)),
      (p0 :: rest).map (fun p => (p.1.address, p.2.map
        (fun h => (⟨h.address, h.amount⟩ : TokenHolder0))))) := rfl
  refine ⟨_, _, hfc, ?_⟩
  intro a
  have hmemcs : a ∈ ((rest.map (fun p => (p.1.address, p.2.map
      (fun h => (⟨h.address, h.amount⟩ : TokenHolder0))))).map
        (fun q => jsSet (q.2.map TokenHolder0.address))).foldl
      (fun commonHolders s => commonHolders.filter (fun h => s.contains h))
      (jsSet ((p0.2.map (fun h => (⟨h.address, h.amount⟩ : TokenHolder0))).map
        TokenHolder0.address)) ↔
      (∀ p ∈ p0 :: rest, a ∈ p.2.map TokenHolder.address) := by
    rw [mem_foldl_filter_contains, haddr p0, mem_jsSet]
    constructor
    · rintro ⟨h1, h2⟩ p hp
      rcases List.mem_cons.mp hp with h3 | h3
      · exact h3 ▸ h1
      · have h4 := h2 _ (List.mem_map.mpr ⟨_, List.mem_map.mpr ⟨p, h3, rfl⟩, rfl⟩)
        rwa [haddr p, mem_jsSet] at h4
    · intro hall
      refine ⟨hall p0 (List.mem_cons_self _ _), ?_⟩
      intro s hsm
      obtain ⟨q, hq, hqs⟩ := List.mem_map.mp hsm
      obtain ⟨p, hp, hpq⟩ := List.mem_map.mp hq
      rw [← hqs, ← hpq]
      rw [show ((p.1.address, p.2.map (fun h => (⟨h.address, h.amount⟩ : TokenHolder0))).2)
          = p.2.map (fun h => (⟨h.address, h.amount⟩ : TokenHolder0)) from rfl,
        haddr p, mem_jsSet]
      exact hall p (List.mem_cons_of_mem _ hp)
  rw [hmemcs, mem_qualify_address_iff]
  constructor
  · rintro ⟨hpos, hge⟩
    rw [totalOcc_eq_countP hhold] at hge
    have hall := (countP_length_le_iff_all _ _).mp hge
    intro p hp
    have h5 := hall p hp
    simpa using h5
  · intro hall
    rw [totalOcc_eq_countP hhold]
    have hcount := (countP_length_le_iff_all (p0 :: rest)
      (fun p => decide (a ∈ p.2.map TokenHolder.address))).mpr
      (fun x hx => by simpa using hall x hx)
    refine ⟨?_, hcount⟩
    have h0 : decide (a ∈ p0.2.map TokenHolder.address) = true := by
      simpa using hall p0 (List.mem_cons_self _ _)
    exact List.countP_pos_iff.mpr ⟨p0, List.mem_cons_self _ _, h0⟩

/-- C5 counterexample: on the empty token list the threshold policy (with
minimum 0 = number of tokens) returns the empty ranking, while the
intersection policy does not produce an address set at all — its seed
`holdersArrays[0]` is absent and the call fails. -/
theorem empty_token_list_policies_disagree :
    qualify (accumulate []) 0 = [] ∧
    findCommonHolders (([] : List (TokenInfo × List TokenHolder)).map
      (fun p => (p.1.address, p.2.map
        (fun h => (⟨h.address, h.amount⟩ : TokenHolder0))))) = none :=
  ⟨rfl, rfl⟩

theorem threshold_at_full_count_matches_intersection_witness :
    ∃ cs det,
      findCommonHolders (twoTokenPairs.map (fun p => (p.1.address, p.2.map
        (fun h => (⟨h.address, h.amount⟩ : TokenHolder0))))) = some (cs, det) ∧
      ∀ a, (a ∈ (qualify (accumulate twoTokenPairs) twoTokenPairs.length).map
        HolderSummary.address ↔ a ∈ cs) :=
  threshold_at_full_count_matches_intersection twoTokenPairs (by decide) (by decide)

/-- The rate ceiling of the `RateLimiter` class (script.ts line 56). -/
def MAX_REQUESTS_PER_SECOND : Nat := 8

/-- The fixed spacing between requests (script.ts line 57): 1000/8 = 125 ms. -/
def MIN_TIME_BETWEEN_REQUESTS : Nat := 1000 / MAX_REQUESTS_PER_SECOND

/-- Wait performed at the top of `processQueue` (script.ts lines 86-92):
when the rolling counter has reached the ceiling, sleep the remainder of
the second since the last request (`1000 - (now - lastRequestTime)`, if
positive; in JS a negative remainder skips the sleep, matching truncated
subtraction here since `now ≥ lastRequestTime`). -/
def rlWait (now lastRequestTime requestsInLastSecond : Nat) : Nat :=
  if MAX_REQUESTS_PER_SECOND ≤ requestsInLastSecond then
    (if 0 < 1000 - (now - lastRequestTime) then 1000 - (now - lastRequestTime) else 0)
  else 0

/-- Value of `requestsInLastSecond` after the two reset checks of
`processQueue` (script.ts lines 86-97): reset after the quota sleep, and
reset when the captured `now` is already a full second past the last
request. -/
def rlCount (now lastRequestTime requestsInLastSecond : Nat) : Nat :=
  if 1000 ≤ now - lastRequestTime then 0
  else if MAX_REQUESTS_PER_SECOND ≤ requestsInLastSecond then
    (if 0 < 1000 - (now - lastRequestTime) then 0 else requestsInLastSecond)
  else requestsInLastSecond

/-- The `processQueue` dispatch loop of the `RateLimiter` (script.ts lines
76-112) in virtual time, given the durations of the queued tasks (in
dispatch order) and the state read at entry (`Date.now()`,
`lastRequestTime`, `requestsInLastSecond`).  Returns the dispatch times:
each task is dispatched after the quota wait, then awaited (its duration),
then the fixed inter-request spacing is awaited before the loop re-enters.
Timers are exact and task durations arbitrary. -/
def processQueue : List Nat → Nat → Nat → Nat → List Nat
  | [], _, _, _ => []
  | d :: ds, now, lastRequestTime, requestsInLastSecond =>
    (now + rlWait now lastRequestTime requestsInLastSecond) ::
      processQueue ds
        (now + rlWait now lastRequestTime requestsInLastSecond + d
          + MIN_TIME_BETWEEN_REQUESTS)
        (now + rlWait now lastRequestTime requestsInLastSecond)
        (rlCount now lastRequestTime requestsInLastSecond + 1)

theorem processQueue_head_ge (ds : List Nat) (now lastR cnt x : Nat)
    (h : (processQueue ds now lastR cnt).head? = some x) : now ≤ x := by
  cases ds with
  | nil => simp [processQueue] at h
  | cons d ds =>
    rw [processQueue] at h
    simp only [List.head?_cons, Option.some.injEq] at h
    rw [← h]
    exact Nat.le_add_right _ _

theorem processQueue_spaced :
    ∀ (ds : List Nat) (now lastR cnt : Nat),
    List.Chain' (fun a b => a + MIN_TIME_BETWEEN_REQUESTS ≤ b)
      (processQueue ds now lastR cnt)
  | [], _, _, _ => List.chain'_nil
  | d :: ds, now, lastR, cnt => by
    rw [processQueue, List.chain'_cons']
    constructor
    · intro y hy
      have h1 := processQueue_head_ge ds _ _ _ y hy
      omega
    · exact processQueue_spaced ds _ _ _

theorem chain'_mem_tail_ge {g : Nat} :
    ∀ {x : Nat} {xs : List Nat}, List.Chain' (fun a b => a + g ≤ b) (x :: xs) →
    ∀ y ∈ xs, x + g ≤ y
  | _, [], _, y, hy => by simp at hy
  | x, z :: zs, hch, y, hy => by
    rw [List.chain'_cons] at hch
    rcases List.mem_cons.mp hy with h1 | h1
    · exact h1 ▸ hch.1
    · have h2 := chain'_mem_tail_ge hch.2 y h1
      omega

theorem spaced_window_count {g : Nat} :
    ∀ (l : List Nat) (T k : Nat), List.Chain' (fun a b => a + g ≤ b) l →
    (l.countP (fun x => decide (T ≤ x ∧ x < T + g * k))) ≤ k
  | [], T, k, _ => by simp
  | x :: xs, T, k, hch => by
    have hxs := hch.tail
    rw [List.countP_cons]
    by_cases hx : T ≤ x ∧ x < T + g * k
    · rcases k with _ | k2
      · exfalso
        omega
      · have hmono : xs.countP (fun y => decide (T ≤ y ∧ y < T + g * (k2 + 1)))
            ≤ xs.countP (fun y => decide ((T + g) ≤ y ∧ y < (T + g) + g * k2)) := by
          apply List.countP_mono_left
          intro y hy hdy
          have hge := chain'_mem_tail_ge hch y hy
          simp only [decide_eq_true_eq] at hdy ⊢
          have hmul : g * (k2 + 1) = g * k2 + g := by ring
          omega
        have hrec := spaced_window_count xs (T + g) k2 hxs
        have hsplit : (if decide (T ≤ x ∧ x < T + g * (k2 + 1)) = true
            then 1 else 0) ≤ 1 := by
          split
          · omega
          · omega
        omega
    · rw [if_neg (by simpa using hx)]
      have hrec := spaced_window_count xs T k hxs
      omega

/-- C8: in the virtual-time model of the `RateLimiter` dispatch loop,
consecutive dispatch times are at least `MIN_TIME_BETWEEN_REQUESTS`
(1000/8 = 125 ms) apart, and consequently at most
`MAX_REQUESTS_PER_SECOND` (8) dispatches fall inside any rolling half-open
one-second window — for every sequence of task durations and every
starting state of the limiter. -/
theorem rate_limiter_spacing_and_window (ds : List Nat) (now lastR cnt : Nat) :
    List.Chain' (fun a b => a + MIN_TIME_BETWEEN_REQUESTS ≤ b)
      (processQueue ds now lastR cnt) ∧
    ∀ T, ((processQueue ds now lastR cnt).countP
      (fun x => decide (T ≤ x ∧ x < T + 1000))) ≤ MAX_REQUESTS_PER_SECOND := by
  refine ⟨processQueue_spaced ds now lastR cnt, fun T => ?_⟩
  have h := spaced_window_count (g := MIN_TIME_BETWEEN_REQUESTS)
    (processQueue ds now lastR cnt) T MAX_REQUESTS_PER_SECOND
    (processQueue_spaced ds now lastR cnt)
  have hprod : MIN_TIME_BETWEEN_REQUESTS * MAX_REQUESTS_PER_SECOND = 1000 := by decide
  rw [hprod] at h
  exact h
